import Mathlib

/-!
Verification of the real-time event distribution subsystem (SSE broadcast hub),
the ephemeral session store, and the notifier ring buffer of the
Hotel-Maintenance-Ticketing-System repository.

Byte payloads are modelled as `List Nat` (each element a byte value 0..255,
Go `[]byte`).  Go channels used as per-client mailboxes are modelled by the
list of messages pending in them; a bounded channel of capacity `cap` accepts
a non-blocking send exactly when fewer than `cap` messages are pending.
-/

namespace Hub

/-- Byte payload, Go `[]byte`. -/
abbrev Msg := List Nat

/-- Mailbox: the pending contents of one client channel `chan []byte`. -/
abbrev Mailbox := List Msg

/-- Capacity of a client mailbox, from `make(chan []byte, 25)` in
`Hub.SSEHandler`. -/
def mailboxCap : Nat := 25

/-- Non-blocking send `select ch <- msg default` on a channel with capacity
`mailboxCap`: append when the buffer has room, otherwise drop (the `default`
branch of the `select` in `Hub.Run`). -/
def trySend (m : Msg) (q : Mailbox) : Mailbox :=
  if q.length < mailboxCap then q ++ [m] else q

/-- Fan-out step of `Hub.Run` for one broadcast message: a non-blocking send
to every registered client (`for ch := range h.clients`). -/
def fanOut (m : Msg) (qs : List Mailbox) : List Mailbox :=
  qs.map (trySend m)

/-- Hub registry state as managed by `Hub.Run`.  Client handles (Go channel
values) are identified by allocation order: `next` is the next fresh handle,
`registry` holds the currently registered handles (`h.clients`), and
`closedList` records each `close(ch)` performed, newest first. -/
structure HubState where
  next : Nat
  registry : List Nat
  closedList : List Nat
deriving DecidableEq, Repr

/-- Initial hub registry, from `NewHub`: empty client map. -/
def hubInit : HubState := ⟨0, [], []⟩

/-- Processing of one registration request in `Hub.Run`:
`h.clients[ch] = struct{}{}` with a fresh channel (handle). -/
def registerStep (s : HubState) : HubState :=
  { s with registry := s.registry ++ [s.next], next := s.next + 1 }

/-- Processing of one unregistration request in `Hub.Run`:
`if _, ok := h.clients[ch]; ok { delete(h.clients, ch); close(ch) }`. -/
def unregisterStep (h : Nat) (s : HubState) : HubState :=
  if h ∈ s.registry then
    { s with registry := s.registry.erase h, closedList := h :: s.closedList }
  else s

/-- One request arriving on the hub's serialized request channels. -/
inductive Req where
  | reg : Req
  | unreg : Nat → Req
deriving DecidableEq, Repr

/-- One iteration of the `select` loop in `Hub.Run` for a
register/unregister request. -/
def hubStep (s : HubState) : Req → HubState
  | .reg => registerStep s
  | .unreg h => unregisterStep h s

/-- Sequential processing of a list of requests by `Hub.Run` (the hub
serializes all requests through its channels). -/
def hubRun (s : HubState) : List Req → HubState
  | [] => s
  | r :: rs => hubRun (hubStep s r) rs

/-- Number of register requests in a request list. -/
def numRegs : List Req → Nat
  | [] => 0
  | .reg :: rs => numRegs rs + 1
  | .unreg _ :: rs => numRegs rs

/-- Number of effective unregistrations along a run: an unregister request
counts exactly when its handle is present in the registry at that moment. -/
def effUnregs (s : HubState) : List Req → Nat
  | [] => 0
  | .reg :: rs => effUnregs (hubStep s .reg) rs
  | .unreg h :: rs =>
    (if h ∈ s.registry then 1 else 0) + effUnregs (hubStep s (.unreg h)) rs

/-- Registry well-formedness: no duplicate handles, and every registered
handle was previously allocated. -/
def GoodHub (s : HubState) : Prop :=
  s.registry.Nodup ∧ ∀ h ∈ s.registry, h < s.next

instance (s : HubState) : Decidable (GoodHub s) := by
  unfold GoodHub; infer_instance

end Hub

namespace SSE

/-- Removal of every newline byte, the effect of
`bytes.ReplaceAll(data, []byte("\n"), []byte(""))` in `writeSSE` /
`writeSSEBuffered`. -/
def stripNewlines : List Nat → List Nat
  | [] => []
  | b :: r => if b = 10 then stripNewlines r else b :: stripNewlines r

/-- Bytes of the ASCII string `data: ` (100 97 116 97 58 32). -/
def dataHeader : List Nat := [100, 97, 116, 97, 58, 32]

/-- Frame written by `writeSSE`/`writeSSEBuffered`:
`fmt.Fprintf(w, "data: %s\n\n", bytes.ReplaceAll(data, newline, empty))`. -/
def sseFrame (data : List Nat) : List Nat :=
  dataHeader ++ stripNewlines data ++ [10, 10]

end SSE

namespace Ring

-- Event records held by the notifier ring buffer stay abstract (`α`); the
-- claims do not depend on their fields.
variable {α : Type}

/-- RingBuffer of `cmd/gateway/main.go` (notifier): `max` bound and backing
slice `arr`. -/
structure RingBuffer (α : Type) where
  max : Nat
  arr : List α
deriving Repr

/-- `NewRingBuffer(max int)`: a non-positive bound is forced to 50; the
buffer starts empty.  The Go `int` argument is modelled as `Int`. -/
def NewRingBuffer (α : Type) (m : Int) : RingBuffer α :=
  ⟨if m ≤ 0 then 50 else m.toNat, []⟩

/-- `RingBuffer.Add`: append while below the bound; once at the bound,
shift left by one (`copy(rb.arr, rb.arr[1:])`) and write the new record at
the last slot — i.e. drop the oldest and append the new one. -/
def RingBuffer.Add (rb : RingBuffer α) (e : α) : RingBuffer α :=
  if rb.arr.length < rb.max then ⟨rb.max, rb.arr ++ [e]⟩
  else ⟨rb.max, rb.arr.tail ++ [e]⟩

/-- `RingBuffer.Snapshot`: the current contents (in the Go code a fresh copy
of the backing slice, so callers cannot alias the buffer). -/
def RingBuffer.Snapshot (rb : RingBuffer α) : List α := rb.arr

/-- Sequential `Add` of a list of records. -/
def addAll (rb : RingBuffer α) : List α → RingBuffer α
  | [] => rb
  | e :: es => addAll (rb.Add e) es

end Ring

namespace Session

/-- Principal stored in a session, `authclient.User`.  Timestamps are
modelled as `Int` (Unix nanoseconds). -/
structure User where
  id : Int
  username : String
  role : String
  room : String
  createdAt : Int
deriving DecidableEq, Repr

/-- A stored session, `session.Session`. -/
structure SessionV where
  id : String
  user : User
  createdAt : Int
deriving DecidableEq, Repr

/-- The session store, `session.Store`: the Go `map[string]Session` is
modelled as an association list with at most one binding per key, plus the
configured ttl (a `time.Duration`, modelled as `Int` nanoseconds). -/
structure Store where
  sessions : List (String × SessionV)
  ttl : Int
deriving DecidableEq, Repr

/-- Map lookup `s.sessions[id]`. -/
def mfind (m : List (String × SessionV)) (k : String) : Option SessionV :=
  match m with
  | [] => none
  | (k', v) :: r => if k' = k then some v else mfind r k

/-- Map write `s.sessions[id] = ss`: replace the binding when the key is
present, otherwise add it. -/
def mset (m : List (String × SessionV)) (k : String) (v : SessionV) :
    List (String × SessionV) :=
  match m with
  | [] => [(k, v)]
  | (k', v') :: r => if k' = k then (k, v) :: r else (k', v') :: mset r k v

/-- Map removal `delete(s.sessions, id)`: every binding of the key goes
(a Go map holds at most one). -/
def mdel (m : List (String × SessionV)) (k : String) :
    List (String × SessionV) :=
  match m with
  | [] => []
  | (k', v') :: r => if k' = k then mdel r k else (k', v') :: mdel r k

/-- `session.NewStore(ttl)`: empty map, given ttl. -/
def NewStore (ttl : Int) : Store := ⟨[], ttl⟩

/-- Lowercase hex digit character, table `"0123456789abcdef"` of
`encoding/hex`. -/
def hexChar (n : Nat) : Char :=
  Char.ofNat (if n < 10 then 48 + n else 87 + n)

/-- Characters produced by `hex.EncodeToString`: two lowercase hex digits
per byte, high nibble first. -/
def hexChars : List Nat → List Char
  | [] => []
  | b :: r => hexChar (b / 16) :: hexChar (b % 16) :: hexChars r

/-- `hex.EncodeToString` on a byte slice. -/
def hexEncodeStr (bs : List Nat) : String := ⟨hexChars bs⟩

/-- `session.newID`: read 32 bytes from the entropy source and hex-encode
them; an entropy failure (modelled as `none`) is returned as the error. -/
def newID (entropy : Option (List Nat)) : Option String :=
  match entropy with
  | none => none
  | some bs => some (hexEncodeStr bs)

/-- `Store.Create(u)`: on entropy failure return the error (`none`) with
the store untouched; otherwise store `{id, u, now}` under the fresh hex id
and return that session. -/
def Create (u : User) (entropy : Option (List Nat)) (now : Int) (s : Store) :
    Option SessionV × Store :=
  match newID entropy with
  | none => (none, s)
  | some id =>
    let ss : SessionV := ⟨id, u, now⟩
    (some ss, ⟨mset s.sessions id ss, s.ttl⟩)

/-- `Store.Get(id)`: a missing key is a miss; a present entry older than
the ttl (`time.Since(ss.CreatedAt) > s.ttl`) is deleted and reported as a
miss; otherwise the session is returned and the store untouched. -/
def Get (id : String) (now : Int) (s : Store) : Option SessionV × Store :=
  match mfind s.sessions id with
  | none => (none, s)
  | some ss =>
    if now - ss.createdAt > s.ttl then (none, ⟨mdel s.sessions id, s.ttl⟩)
    else (some ss, s)

/-- `Store.Delete(id)`: unconditional removal. -/
def Delete (id : String) (s : Store) : Store := ⟨mdel s.sessions id, s.ttl⟩

/-- Sample guest principal used in concrete instantiations. -/
def userA : User := ⟨1, "a", "GUEST", "101", 0⟩

/-- Sample staff principal used in concrete instantiations. -/
def userB : User := ⟨2, "b", "STAFF", "", 0⟩

/-- An all-zero 32-byte entropy read. -/
def zeroBytes : List Nat := List.replicate 32 0

/-- The session id generated from `zeroBytes`. -/
def zeroId : String := hexEncodeStr zeroBytes

/-- A store already holding a session under `zeroId`. -/
def store0 : Store := ⟨[(zeroId, ⟨zeroId, userA, 0⟩)], 100⟩

/-- A one-entry store with ttl 10 whose session was created at time 0. -/
def storeW : Store := ⟨[("a", ⟨"a", userA, 0⟩)], 10⟩

end Session

namespace Json

/-!
Model of `json.Valid` from Go `encoding/json/scanner.go`: a byte-at-a-time
state machine (`checkValid` feeds every byte to `scanner.step`, then checks
`scanner.eof`).  The parse stack `parseState` is modelled with its top at the
head of a list.
-/

/-- Elements of the scanner's `parseState` stack. -/
inductive PState where
  | objKey | objValue | arrValue
deriving DecidableEq, Repr

/-- The scanner's current `step` function. -/
inductive Mode where
  | beginValue | beginValueOrEmpty
  | beginString | beginStringOrEmpty
  | inString | inStringEsc | escU | escU1 | escU2 | escU3
  | neg | num0 | num1 | numDot | numDot0 | numE | numESign | numE0
  | litT | litTr | litTru
  | litF | litFa | litFal | litFals
  | litN | litNu | litNul
  | endValue | endTop
  | err
deriving DecidableEq, Repr

/-- Scanner state: current step function and parse stack. -/
structure ScanState where
  mode : Mode
  stack : List PState
deriving DecidableEq, Repr

/-- `isSpace` of the scanner: space, tab, newline, carriage return. -/
def isSpaceB (c : Nat) : Prop := c = 32 ∨ c = 9 ∨ c = 10 ∨ c = 13

instance (c : Nat) : Decidable (isSpaceB c) := by unfold isSpaceB; infer_instance

/-- Hex digit as accepted by the `\u` escape states. -/
def isHexDigit (c : Nat) : Prop :=
  (48 ≤ c ∧ c ≤ 57) ∨ (97 ≤ c ∧ c ≤ 102) ∨ (65 ≤ c ∧ c ≤ 70)

instance (c : Nat) : Decidable (isHexDigit c) := by unfold isHexDigit; infer_instance

/-- `maxNestingDepth` of the scanner. -/
def maxNestingDepth : Nat := 10000

/-- `pushParseState`: push and enter the success state, unless the nesting
depth limit is exceeded. -/
def pushPS (stack : List PState) (p : PState) (success : Mode) : ScanState :=
  let st := p :: stack
  if st.length ≤ maxNestingDepth then ⟨success, st⟩ else ⟨.err, st⟩

/-- `popParseState`: pop; an empty stack means the top-level value is
complete. -/
def popPS (stack : List PState) : ScanState :=
  match stack with
  | [] => ⟨.err, []⟩
  | _ :: rest => if rest.isEmpty then ⟨.endTop, rest⟩ else ⟨.endValue, rest⟩

/-- `stateEndValue`. -/
def endValueStep (stack : List PState) (c : Nat) : ScanState :=
  match stack with
  | [] => if isSpaceB c then ⟨.endTop, []⟩ else ⟨.err, []⟩
  | p :: rest =>
    if isSpaceB c then ⟨.endValue, p :: rest⟩
    else
      match p with
      | .objKey =>
        if c = 58 then ⟨.beginValue, .objValue :: rest⟩ else ⟨.err, p :: rest⟩
      | .objValue =>
        if c = 44 then ⟨.beginString, .objKey :: rest⟩
        else if c = 125 then popPS (p :: rest)
        else ⟨.err, p :: rest⟩
      | .arrValue =>
        if c = 44 then ⟨.beginValue, p :: rest⟩
        else if c = 93 then popPS (p :: rest)
        else ⟨.err, p :: rest⟩

/-- `stateBeginValue`. -/
def beginValueStep (stack : List PState) (c : Nat) : ScanState :=
  if isSpaceB c then ⟨.beginValue, stack⟩
  else if c = 123 then pushPS stack .objKey .beginStringOrEmpty
  else if c = 91 then pushPS stack .arrValue .beginValueOrEmpty
  else if c = 34 then ⟨.inString, stack⟩
  else if c = 45 then ⟨.neg, stack⟩
  else if c = 48 then ⟨.num0, stack⟩
  else if c = 116 then ⟨.litT, stack⟩
  else if c = 102 then ⟨.litF, stack⟩
  else if c = 110 then ⟨.litN, stack⟩
  else if 49 ≤ c ∧ c ≤ 57 then ⟨.num1, stack⟩
  else ⟨.err, stack⟩

/-- `stateBeginString`. -/
def beginStringStep (stack : List PState) (c : Nat) : ScanState :=
  if isSpaceB c then ⟨.beginString, stack⟩
  else if c = 34 then ⟨.inString, stack⟩
  else ⟨.err, stack⟩

/-- `stateInString`. -/
def inStringStep (stack : List PState) (c : Nat) : ScanState :=
  if c = 34 then ⟨.endValue, stack⟩
  else if c = 92 then ⟨.inStringEsc, stack⟩
  else if c < 32 then ⟨.err, stack⟩
  else ⟨.inString, stack⟩

/-- `state0` (after the integer part): fraction, exponent, or end of the
numeric value. -/
def num0Step (stack : List PState) (c : Nat) : ScanState :=
  if c = 46 then ⟨.numDot, stack⟩
  else if c = 101 ∨ c = 69 then ⟨.numE, stack⟩
  else endValueStep stack c

/-- One step of the scanner (`scanner.step` dispatched on the current
state), with the error state absorbing. -/
def scanStep (s : ScanState) (c : Nat) : ScanState :=
  match s.mode with
  | .err => s
  | .beginValue => beginValueStep s.stack c
  | .beginValueOrEmpty =>
    if isSpaceB c then ⟨.beginValueOrEmpty, s.stack⟩
    else if c = 93 then endValueStep s.stack c
    else beginValueStep s.stack c
  | .beginString => beginStringStep s.stack c
  | .beginStringOrEmpty =>
    if isSpaceB c then ⟨.beginStringOrEmpty, s.stack⟩
    else if c = 125 then
      match s.stack with
      | p :: rest =>
        match p with
        | _ => endValueStep (.objValue :: rest) c
      | [] => ⟨.err, []⟩
    else beginStringStep s.stack c
  | .inString => inStringStep s.stack c
  | .inStringEsc =>
    if c = 98 ∨ c = 102 ∨ c = 110 ∨ c = 114 ∨ c = 116 ∨ c = 92 ∨ c = 47 ∨ c = 34 then
      ⟨.inString, s.stack⟩
    else if c = 117 then ⟨.escU, s.stack⟩
    else ⟨.err, s.stack⟩
  | .escU => if isHexDigit c then ⟨.escU1, s.stack⟩ else ⟨.err, s.stack⟩
  | .escU1 => if isHexDigit c then ⟨.escU2, s.stack⟩ else ⟨.err, s.stack⟩
  | .escU2 => if isHexDigit c then ⟨.escU3, s.stack⟩ else ⟨.err, s.stack⟩
  | .escU3 => if isHexDigit c then ⟨.inString, s.stack⟩ else ⟨.err, s.stack⟩
  | .neg =>
    if c = 48 then ⟨.num0, s.stack⟩
    else if 49 ≤ c ∧ c ≤ 57 then ⟨.num1, s.stack⟩
    else ⟨.err, s.stack⟩
  | .num0 => num0Step s.stack c
  | .num1 =>
    if 48 ≤ c ∧ c ≤ 57 then ⟨.num1, s.stack⟩ else num0Step s.stack c
  | .numDot =>
    if 48 ≤ c ∧ c ≤ 57 then ⟨.numDot0, s.stack⟩ else ⟨.err, s.stack⟩
  | .numDot0 =>
    if 48 ≤ c ∧ c ≤ 57 then ⟨.numDot0, s.stack⟩
    else if c = 101 ∨ c = 69 then ⟨.numE, s.stack⟩
    else endValueStep s.stack c
  | .numE =>
    if c = 43 ∨ c = 45 then ⟨.numESign, s.stack⟩
    else if 48 ≤ c ∧ c ≤ 57 then ⟨.numE0, s.stack⟩
    else ⟨.err, s.stack⟩
  | .numESign =>
    if 48 ≤ c ∧ c ≤ 57 then ⟨.numE0, s.stack⟩ else ⟨.err, s.stack⟩
  | .numE0 =>
    if 48 ≤ c ∧ c ≤ 57 then ⟨.numE0, s.stack⟩ else endValueStep s.stack c
  | .litT => if c = 114 then ⟨.litTr, s.stack⟩ else ⟨.err, s.stack⟩
  | .litTr => if c = 117 then ⟨.litTru, s.stack⟩ else ⟨.err, s.stack⟩
  | .litTru => if c = 101 then ⟨.endValue, s.stack⟩ else ⟨.err, s.stack⟩
  | .litF => if c = 97 then ⟨.litFa, s.stack⟩ else ⟨.err, s.stack⟩
  | .litFa => if c = 108 then ⟨.litFal, s.stack⟩ else ⟨.err, s.stack⟩
  | .litFal => if c = 115 then ⟨.litFals, s.stack⟩ else ⟨.err, s.stack⟩
  | .litFals => if c = 101 then ⟨.endValue, s.stack⟩ else ⟨.err, s.stack⟩
  | .litN => if c = 117 then ⟨.litNu, s.stack⟩ else ⟨.err, s.stack⟩
  | .litNu => if c = 108 then ⟨.litNul, s.stack⟩ else ⟨.err, s.stack⟩
  | .litNul => if c = 108 then ⟨.endValue, s.stack⟩ else ⟨.err, s.stack⟩
  | .endValue => endValueStep s.stack c
  | .endTop => if isSpaceB c then s else ⟨.err, s.stack⟩

/-- Initial scanner state (`scanner.reset`). -/
def scanInit : ScanState := ⟨.beginValue, []⟩

/-- `scanner.eof`: accept if a top-level value is complete, trying one
virtual trailing space first (so e.g. a bare number can close). -/
def eofOK (s : ScanState) : Bool :=
  match s.mode with
  | .err => false
  | .endTop => true
  | _ =>
    match (scanStep s 32).mode with
    | .endTop => true
    | _ => false

/-- `json.Valid`: run the scanner over all bytes, then the eof check. -/
def jsonValid (b : List Nat) : Bool := eofOK (b.foldl scanStep scanInit)

/-!
Model of the fallback `json.Marshal(map[string]any{"event": "raw",
"payload": string(b)})` in `Hub.Broadcast`: keys are emitted sorted
(`event` before `payload`), and the payload string is encoded by
`encodeState.string` with its default HTML escaping.
-/

/-- `utf8.DecodeRune`: (rune, size); every malformed prefix decodes to
(RuneError = 0xFFFD, 1). -/
def decodeRune : List Nat → Nat × Nat
  | [] => (0xFFFD, 0)
  | b0 :: rest =>
    if b0 < 0x80 then (b0, 1)
    else if b0 < 0xC2 then (0xFFFD, 1)
    else if b0 ≤ 0xDF then
      match rest with
      | b1 :: _ =>
        if 0x80 ≤ b1 ∧ b1 ≤ 0xBF then ((b0 - 0xC0) * 0x40 + (b1 - 0x80), 2)
        else (0xFFFD, 1)
      | [] => (0xFFFD, 1)
    else if b0 ≤ 0xEF then
      match rest with
      | b1 :: b2 :: _ =>
        if (if b0 = 0xE0 then 0xA0 else 0x80) ≤ b1
            ∧ b1 ≤ (if b0 = 0xED then 0x9F else 0xBF)
            ∧ 0x80 ≤ b2 ∧ b2 ≤ 0xBF then
          ((b0 - 0xE0) * 0x1000 + (b1 - 0x80) * 0x40 + (b2 - 0x80), 3)
        else (0xFFFD, 1)
      | _ => (0xFFFD, 1)
    else if b0 ≤ 0xF4 then
      match rest with
      | b1 :: b2 :: b3 :: _ =>
        if (if b0 = 0xF0 then 0x90 else 0x80) ≤ b1
            ∧ b1 ≤ (if b0 = 0xF4 then 0x8F else 0xBF)
            ∧ 0x80 ≤ b2 ∧ b2 ≤ 0xBF ∧ 0x80 ≤ b3 ∧ b3 ≤ 0xBF then
          ((b0 - 0xF0) * 0x40000 + (b1 - 0x80) * 0x1000
              + (b2 - 0x80) * 0x40 + (b3 - 0x80), 4)
        else (0xFFFD, 1)
      | _ => (0xFFFD, 1)
    else (0xFFFD, 1)

/-- Lowercase hex digit byte, table `"0123456789abcdef"` of the encoder. -/
def hexDigB (n : Nat) : Nat := if n < 10 then 48 + n else 87 + n

/-- Byte considered safe by `htmlSafeSet`: printable ASCII other than
`"`, `\`, `<`, `>`, `&`. -/
def htmlSafe (b : Nat) : Prop :=
  32 ≤ b ∧ b ≠ 34 ∧ b ≠ 92 ∧ b ≠ 60 ∧ b ≠ 62 ∧ b ≠ 38

instance (b : Nat) : Decidable (htmlSafe b) := by unfold htmlSafe; infer_instance

/-- Escape emitted for an unsafe ASCII byte by `encodeState.string`. -/
def escByte (b : Nat) : List Nat :=
  if b = 92 ∨ b = 34 then [92, b]
  else if b = 10 then [92, 110]
  else if b = 13 then [92, 114]
  else if b = 9 then [92, 116]
  else [92, 117, 48, 48, hexDigB (b / 16), hexDigB (b % 16)]

/-- Body (between the quotes) of the JSON string produced by
`encodeState.string(string(b), escapeHTML = true)`: safe ASCII bytes pass
through, unsafe ASCII bytes are escaped, malformed UTF-8 becomes the
6-byte escape for U+FFFD, U+2028/U+2029 are escaped, and every other
multi-byte rune is copied verbatim. -/
def quoteBody : List Nat → List Nat
  | [] => []
  | b :: rest =>
    if b < 0x80 then
      (if htmlSafe b then [b] else escByte b) ++ quoteBody rest
    else
      let d := decodeRune (b :: rest)
      if d.1 = 0xFFFD ∧ d.2 = 1 then
        [92, 117, 102, 102, 102, 100] ++ quoteBody rest
      else if d.1 = 0x2028 ∨ d.1 = 0x2029 then
        match d.2, rest with
        | 3, _ :: _ :: r2 =>
          [92, 117, 50, 48, 50, hexDigB (d.1 % 16)] ++ quoteBody r2
        | _, _ => []
      else
        match d.2, rest with
        | 2, b1 :: r1 => [b, b1] ++ quoteBody r1
        | 3, b1 :: b2 :: r2 => [b, b1, b2] ++ quoteBody r2
        | 4, b1 :: b2 :: b3 :: r3 => [b, b1, b2, b3] ++ quoteBody r3
        | _, _ => []

/-- Bytes of the marshalled envelope up to and including the opening quote
of the payload string (`{"event":"raw","payload":"` — 123 is `{`, 34 `"`,
58 `:`, 44 `,`). -/
def wrapOpen : List Nat :=
  [123, 34, 101, 118, 101, 110, 116, 34, 58, 34, 114, 97, 119, 34, 44,
   34, 112, 97, 121, 108, 111, 97, 100, 34, 58, 34]

/-- Closing quote and brace of the envelope. -/
def wrapClose : List Nat := [34, 125]

/-- The whole marshalled fallback envelope for payload `b`. -/
def rawWrap (b : List Nat) : List Nat := wrapOpen ++ quoteBody b ++ wrapClose

/-- The ASCII bytes of `hello`. -/
def helloBytes : List Nat := [104, 101, 108, 108, 111]

/-- The expected envelope `{"event":"raw","payload":"hello"}` for the
non-JSON payload `hello`, byte for byte. -/
def helloWrapped : List Nat :=
  [123, 34, 101, 118, 101, 110, 116, 34, 58, 34, 114, 97, 119, 34, 44,
   34, 112, 97, 121, 108, 111, 97, 100, 34, 58, 34,
   104, 101, 108, 108, 111, 34, 125]

end Json

namespace Hub

/-- Normalization in `Hub.Broadcast`: bytes that are already valid JSON are
forwarded unchanged, anything else is wrapped in the raw envelope. -/
def broadcastMsg (b : Msg) : Msg :=
  if Json.jsonValid b then b else Json.rawWrap b

/-- Capacity of the hub's broadcast channel, `make(chan []byte, 100)` in
`NewHub`. -/
def broadcastCap : Nat := 100

/-- Full hub state seen by `Broadcast`: the registered client mailboxes and
the pending buffered contents of the `h.broadcast` channel.  The channel
holds at most `broadcastCap` messages; `BroadcastOp` enforces that bound,
so every reachable `queue` has length at most 100. -/
structure HubFull where
  clients : List Mailbox
  queue : List Msg
deriving DecidableEq, Repr

/-- `Hub.Broadcast(b)`: normalize, copy, and send on the buffered broadcast
channel (`h.broadcast <- append([]byte(nil), b...)`).  A send on a Go
channel whose buffer already holds `broadcastCap` messages blocks the
caller until `Run` drains one; the blocked outcome is modelled as `none`,
an immediate successful enqueue as `some` of the new state.  The client
set is not touched either way. -/
def BroadcastOp (b : Msg) (st : HubFull) : Option HubFull :=
  if st.queue.length < broadcastCap then
    some { st with queue := st.queue ++ [broadcastMsg b] }
  else none

/-- One `case msg := <-h.broadcast` iteration of `Run`: dequeue the oldest
pending broadcast and fan it out to the registered mailboxes (a no-op when
nothing is pending). -/
def runBroadcastStep (st : HubFull) : HubFull :=
  match st.queue with
  | [] => st
  | m :: rest => ⟨fanOut m st.clients, rest⟩

end Hub

namespace Hub

theorem goodHub_hubStep {s : HubState} (hs : GoodHub s) (r : Req) :
    GoodHub (hubStep s r) := by
  obtain ⟨hnd, hlt⟩ := hs
  cases r with
  | reg =>
    have hfresh : s.next ∉ s.registry := fun hmem => absurd (hlt s.next hmem) (by omega)
    constructor
    · simp only [hubStep, registerStep]
      refine List.nodup_append.mpr ⟨hnd, by simp, ?_⟩
      intro x hx hx'
      rw [List.mem_singleton] at hx'
      exact hfresh (hx' ▸ hx)
    · intro h hm
      simp only [hubStep, registerStep, List.mem_append, List.mem_singleton] at hm
      rcases hm with hm | hm
      · have := hlt h hm; simp [hubStep, registerStep]; omega
      · simp [hubStep, registerStep, hm]
  | unreg h =>
    by_cases hm : h ∈ s.registry
    · constructor
      · simpa [hubStep, unregisterStep, hm] using hnd.erase h
      · intro x hx
        simp only [hubStep, unregisterStep, hm, if_pos] at hx ⊢
        exact hlt x (List.mem_of_mem_erase hx)
    · simpa [hubStep, unregisterStep, hm] using ⟨hnd, hlt⟩

theorem goodHub_run (rs : List Req) :
    ∀ s : HubState, GoodHub s → GoodHub (hubRun s rs) := by
  induction rs with
  | nil => intro s hs; simpa [hubRun] using hs
  | cons r rs ih => intro s hs; exact ih _ (goodHub_hubStep hs r)

theorem hubRun_count (rs : List Req) :
    ∀ s : HubState, GoodHub s →
      (hubRun s rs).registry.length + effUnregs s rs
        = s.registry.length + numRegs rs := by
  induction rs with
  | nil => intro s _; simp [hubRun, effUnregs, numRegs]
  | cons r rs ih =>
    intro s hs
    cases r with
    | reg =>
      have hrec := ih (hubStep s .reg) (goodHub_hubStep hs .reg)
      have hlen : (hubStep s .reg).registry.length = s.registry.length + 1 := by
        simp [hubStep, registerStep]
      simp only [hubRun, effUnregs, numRegs]
      omega
    | unreg h =>
      have hrec := ih (hubStep s (.unreg h)) (goodHub_hubStep hs (.unreg h))
      by_cases hm : h ∈ s.registry
      · have hlen : (hubStep s (.unreg h)).registry.length + 1
            = s.registry.length := by
          simpa [hubStep, unregisterStep, hm] using List.length_erase_add_one hm
        simp only [hubRun, effUnregs, numRegs]
        rw [if_pos hm]
        omega
      · have hlen : (hubStep s (.unreg h)).registry.length = s.registry.length := by
          simp [hubStep, unregisterStep, hm]
        simp only [hubRun, effUnregs, numRegs]
        rw [if_neg hm]
        omega

end Hub

/-- C1: the fan-out of one broadcast message appends the message to every
registered client mailbox holding fewer than 25 pending messages, leaves
every full mailbox unchanged, treats each client independently of all
others, and is a total function of the mailbox list (it cannot block). -/
theorem C1_fanout_per_client (m : Hub.Msg) (qs : List Hub.Mailbox) :
    (Hub.fanOut m qs).length = qs.length ∧
    List.Forall₂ (fun q q' =>
      (q.length < Hub.mailboxCap → q' = q ++ [m]) ∧
      (¬ q.length < Hub.mailboxCap → q' = q)) qs (Hub.fanOut m qs) := by
  constructor
  · simp [Hub.fanOut]
  · induction qs with
    | nil => simp [Hub.fanOut]
    | cons q qs ih =>
      simp only [Hub.fanOut, List.map_cons] at ih ⊢
      refine List.Forall₂.cons ⟨fun h => ?_, fun h => ?_⟩ ih
      · simp [Hub.trySend, if_pos h]
      · simp [Hub.trySend, if_neg h]

theorem C1_fanout_per_client_witness :
    (Hub.fanOut [7] [List.replicate 25 [0], []]).length
      = ([List.replicate 25 [0], []] : List Hub.Mailbox).length :=
  (C1_fanout_per_client [7] [List.replicate 25 [0], []]).1

namespace Hub

theorem broadcastOp_bound (b : Msg) (st st' : HubFull)
    (h : BroadcastOp b st = some st') : st'.queue.length ≤ broadcastCap := by
  rw [BroadcastOp] at h
  by_cases hc : st.queue.length < broadcastCap
  · rw [if_pos hc, Option.some.injEq] at h
    rw [← h]
    simp only [List.length_append, List.length_cons, List.length_nil]
    omega
  · rw [if_neg hc] at h
    cases h

end Hub

/-- C3 as stated is false: `Broadcast` ends with a send on the buffered
broadcast channel of capacity 100, so when 100 broadcasts are already
pending the call blocks the caller (here with zero registered clients, so
neither client count nor mailbox state rescues it). -/
theorem C3_blocking_counterexample :
    Hub.BroadcastOp [49] ⟨[], List.replicate 100 [48]⟩ = none ∧
    (List.replicate 100 ([48] : Hub.Msg)).length = 100 ∧
    ((⟨[], List.replicate 100 [48]⟩ : Hub.HubFull)).clients = [] := by
  refine ⟨?_, by simp, rfl⟩
  rw [Hub.BroadcastOp, if_neg (by simp [Hub.broadcastCap])]

/-- C3 amended: whether `Broadcast` blocks depends only on the pending
broadcast backlog, never on the number of registered clients or the state
of their mailboxes: with fewer than 100 broadcasts pending the call
completes immediately, appending exactly the normalized message and
touching no client state (so with zero clients it has no client-side
effect at all); only a backlog of 100 pending broadcasts blocks the
caller, and replacing the client list by any other — empty or fully
saturated — changes neither the blocking outcome nor the enqueued queue.
The subsequent `Run` drain of one message is total, and with zero clients
it only pops the queue. -/
theorem C3_broadcast_bounded (b : Hub.Msg) (st : Hub.HubFull) :
    (st.queue.length < Hub.broadcastCap →
      Hub.BroadcastOp b st = some ⟨st.clients, st.queue ++ [Hub.broadcastMsg b]⟩) ∧
    ((Hub.BroadcastOp b st).isSome ↔ st.queue.length < Hub.broadcastCap) ∧
    (∀ st', Hub.BroadcastOp b st = some st' → st'.clients = st.clients) ∧
    (∀ cs : List Hub.Mailbox,
      Hub.BroadcastOp b ⟨cs, st.queue⟩
        = (Hub.BroadcastOp b st).map (fun s => ⟨cs, s.queue⟩)) ∧
    Hub.runBroadcastStep ⟨[], st.queue⟩ = ⟨[], st.queue.tail⟩ := by
  refine ⟨?_, ?_, ?_, ?_, ?_⟩
  · intro hc
    rw [Hub.BroadcastOp, if_pos hc]
  · rw [Hub.BroadcastOp]
    by_cases hc : st.queue.length < Hub.broadcastCap
    · simp [hc]
    · simp [hc]
  · intro st' h
    rw [Hub.BroadcastOp] at h
    by_cases hc : st.queue.length < Hub.broadcastCap
    · rw [if_pos hc, Option.some.injEq] at h
      rw [← h]
    · rw [if_neg hc] at h
      cases h
  · intro cs
    rw [Hub.BroadcastOp, Hub.BroadcastOp]
    by_cases hc : st.queue.length < Hub.broadcastCap
    · rw [if_pos hc, if_pos hc]
      rfl
    · rw [if_neg hc, if_neg hc]
      rfl
  · cases st.queue with
    | nil => rfl
    | cons m rest => rfl

theorem C3_broadcast_bounded_witness :
    Hub.BroadcastOp Json.helloBytes (⟨[], []⟩ : Hub.HubFull)
      = some ⟨[], [Hub.broadcastMsg Json.helloBytes]⟩ :=
  (C3_broadcast_bounded Json.helloBytes ⟨[], []⟩).1 (by decide)

/-- C7: unregistering a registered handle removes it from the registry and
closes its mailbox exactly once; a second unregister of the same handle is
a no-op that changes nothing and closes nothing. -/
theorem C7_unregister_idempotent (s : Hub.HubState) (h : Nat)
    (hnd : s.registry.Nodup) (hm : h ∈ s.registry) :
    Hub.unregisterStep h s
        = ⟨s.next, s.registry.erase h, h :: s.closedList⟩ ∧
    h ∉ (Hub.unregisterStep h s).registry ∧
    Hub.unregisterStep h (Hub.unregisterStep h s) = Hub.unregisterStep h s := by
  have h1 : Hub.unregisterStep h s
      = ⟨s.next, s.registry.erase h, h :: s.closedList⟩ := by
    simp [Hub.unregisterStep, hm]
  have h2 : h ∉ s.registry.erase h := hnd.not_mem_erase
  refine ⟨h1, by rw [h1]; exact h2, ?_⟩
  rw [h1]
  simp [Hub.unregisterStep, h2]

theorem C7_unregister_idempotent_witness :
    Hub.unregisterStep 1 (Hub.unregisterStep 1 (⟨2, [0, 1], []⟩ : Hub.HubState))
      = Hub.unregisterStep 1 (⟨2, [0, 1], []⟩ : Hub.HubState) :=
  (C7_unregister_idempotent ⟨2, [0, 1], []⟩ 1 (by decide) (by decide)).2.2

/-- C8: for every interleaving of register/unregister requests processed
from the initial hub, the registry size equals the number of registrations
minus the number of effective unregistrations, the registry never holds a
handle twice, every registered handle was allocated earlier, and the next
allocated handle is fresh (never previously present). -/
theorem C8_register_count (rs : List Hub.Req) :
    (Hub.hubRun Hub.hubInit rs).registry.length + Hub.effUnregs Hub.hubInit rs
        = Hub.numRegs rs ∧
    (Hub.hubRun Hub.hubInit rs).registry.Nodup ∧
    (∀ h ∈ (Hub.hubRun Hub.hubInit rs).registry,
        h < (Hub.hubRun Hub.hubInit rs).next) ∧
    (Hub.hubRun Hub.hubInit rs).next ∉ (Hub.hubRun Hub.hubInit rs).registry := by
  have hinit : Hub.GoodHub Hub.hubInit := by
    constructor <;> simp [Hub.hubInit]
  have hg := Hub.goodHub_run rs Hub.hubInit hinit
  obtain ⟨hnd, hlt⟩ := hg
  refine ⟨?_, hnd, hlt, fun hmem => ?_⟩
  · have := Hub.hubRun_count rs Hub.hubInit hinit
    simpa [Hub.hubInit] using this
  · exact absurd (hlt _ hmem) (by omega)

theorem C8_register_count_witness :
    (Hub.hubRun Hub.hubInit [.reg, .reg, .unreg 0, .unreg 0]).registry.length
        + Hub.effUnregs Hub.hubInit [.reg, .reg, .unreg 0, .unreg 0]
      = Hub.numRegs [.reg, .reg, .unreg 0, .unreg 0] :=
  (C8_register_count [.reg, .reg, .unreg 0, .unreg 0]).1

namespace SSE

theorem stripNewlines_not_mem (d : List Nat) : 10 ∉ stripNewlines d := by
  induction d with
  | nil => simp [stripNewlines]
  | cons b r ih =>
    by_cases hb : b = 10
    · simpa [stripNewlines, hb] using ih
    · simp only [stripNewlines, hb, if_neg, not_false_iff, List.mem_cons]
      exact fun hc => hc.elim (fun he => hb he.symm) ih

theorem stripNewlines_id {d : List Nat} (h : 10 ∉ d) : stripNewlines d = d := by
  induction d with
  | nil => simp [stripNewlines]
  | cons b r ih =>
    simp only [List.mem_cons, not_or] at h
    have hb : ¬ b = 10 := fun he => h.1 (Eq.symm he)
    simp [stripNewlines, hb, ih h.2]

end SSE

/-- C9: every emitted stream frame is exactly `data: `, then the payload
with all newline bytes removed, then the two terminating newlines — the
payload body contributes no newline, so the frame boundary is exactly the
final blank line, and a newline-free payload passes through unchanged. -/
theorem C9_frame_shape (d : List Nat) :
    SSE.sseFrame d = [100, 97, 116, 97, 58, 32] ++ SSE.stripNewlines d ++ [10, 10] ∧
    10 ∉ SSE.stripNewlines d ∧
    (SSE.sseFrame d).count 10 = 2 ∧
    (10 ∉ d → SSE.stripNewlines d = d) := by
  refine ⟨rfl, SSE.stripNewlines_not_mem d, ?_, fun h => SSE.stripNewlines_id h⟩
  simp [SSE.sseFrame, SSE.dataHeader, List.count_append,
    List.count_eq_zero.mpr (SSE.stripNewlines_not_mem d)]

theorem C9_frame_shape_witness :
    10 ∉ ([104, 105] : List Nat) ∧ SSE.stripNewlines [104, 105] = [104, 105] :=
  ⟨by decide, (C9_frame_shape [104, 105]).2.2.2 (by decide)⟩

namespace Ring

theorem addAll_spec {α : Type} (es : List α) :
    ∀ rb : RingBuffer α, rb.arr.length ≤ rb.max → 1 ≤ rb.max →
      (addAll rb es).max = rb.max ∧
      (addAll rb es).arr = (rb.arr ++ es).drop ((rb.arr ++ es).length - rb.max) := by
  induction es with
  | nil =>
    intro rb h1 _
    have hz : rb.arr.length - rb.max = 0 := by omega
    simp [addAll, hz]
  | cons e es ih =>
    intro rb h1 h2
    have hstep : addAll rb (e :: es) = addAll (rb.Add e) es := rfl
    by_cases hc : rb.arr.length < rb.max
    · have hAdd : rb.Add e = ⟨rb.max, rb.arr ++ [e]⟩ := by
        simp [RingBuffer.Add, hc]
      have hl : (rb.Add e).arr.length ≤ (rb.Add e).max := by
        rw [hAdd]; simpa using hc
      have hx : 1 ≤ (rb.Add e).max := by rw [hAdd]; exact h2
      obtain ⟨hm, ha⟩ := ih (rb.Add e) hl hx
      rw [hAdd] at hm ha
      dsimp only at hm ha
      refine ⟨by rw [hstep, hAdd, hm], ?_⟩
      rw [hstep, hAdd, ha]
      simp [List.append_assoc]
    · have hfull : rb.arr.length = rb.max := by omega
      cases harr : rb.arr with
      | nil => rw [harr] at hfull; simp at hfull; omega
      | cons a t =>
        have ht : t.length + 1 = rb.max := by
          rw [harr] at hfull
          simp only [List.length_cons] at hfull
          exact hfull
        have hAdd : rb.Add e = ⟨rb.max, t ++ [e]⟩ := by
          simp only [RingBuffer.Add]
          rw [if_neg hc, harr]
          rfl
        have hl : (rb.Add e).arr.length ≤ (rb.Add e).max := by
          rw [hAdd]
          simp only [List.length_append, List.length_cons, List.length_nil]
          omega
        have hx : 1 ≤ (rb.Add e).max := by rw [hAdd]; exact h2
        obtain ⟨hm, ha⟩ := ih (rb.Add e) hl hx
        rw [hAdd] at hm ha
        dsimp only at hm ha
        refine ⟨by rw [hstep, hAdd, hm], ?_⟩
        rw [hstep, hAdd, ha]
        have e1 : ((t ++ [e]) ++ es) = t ++ e :: es := by simp
        have e2 : ((a :: t) ++ e :: es) = a :: (t ++ e :: es) := by simp
        rw [e1, e2]
        have l1 : (t ++ e :: es).length - rb.max = es.length := by
          simp only [List.length_append, List.length_cons]; omega
        have l2 : (a :: (t ++ e :: es)).length - rb.max = es.length + 1 := by
          simp only [List.length_append, List.length_cons]; omega
        rw [l1, l2, List.drop_succ_cons]

end Ring

/-- C10: starting from `NewRingBuffer max` (bound forced to 50 when
`max <= 0`), after any sequence of `Add`s the buffer holds exactly the most
recent records in arrival order (the suffix of the arrival sequence of
length at most the bound), never exceeds the bound, a full buffer reacts to
`Add` by dropping exactly the oldest record and appending the new one, and
`Snapshot` returns exactly the current contents. -/
theorem C10_ring_buffer {α : Type} (m : Int) (es : List α) (e : α)
    (rb : Ring.RingBuffer α) (hrb : rb = Ring.addAll (Ring.NewRingBuffer α m) es) :
    rb.max = (if m ≤ 0 then 50 else m.toNat) ∧
    rb.arr = es.drop (es.length - rb.max) ∧
    rb.arr.length ≤ rb.max ∧
    (rb.arr.length = rb.max → (rb.Add e).arr = rb.arr.tail ++ [e]) ∧
    rb.Snapshot = rb.arr := by
  have hmax1 : 1 ≤ (Ring.NewRingBuffer α m).max := by
    simp only [Ring.NewRingBuffer]
    split
    · omega
    · omega
  have hlen0 : (Ring.NewRingBuffer α m).arr.length ≤ (Ring.NewRingBuffer α m).max := by
    simp [Ring.NewRingBuffer]
  obtain ⟨hm, ha⟩ := Ring.addAll_spec es (Ring.NewRingBuffer α m) hlen0 hmax1
  have hmeq : rb.max = (Ring.NewRingBuffer α m).max := by rw [hrb, hm]
  have hmv : rb.max = (if m ≤ 0 then 50 else m.toNat) := by
    rw [hmeq]; rfl
  have hav : rb.arr = es.drop (es.length - rb.max) := by
    rw [hmeq, hrb, ha]
    simp [Ring.NewRingBuffer]
  refine ⟨hmv, hav, ?_, ?_, rfl⟩
  · rw [hav]
    simp only [List.length_drop]
    omega
  · intro hful
    simp [Ring.RingBuffer.Add, hful]

namespace Session

theorem mfind_mdel (m : List (String × SessionV)) (k : String) :
    mfind (mdel m k) k = none := by
  induction m with
  | nil => simp [mdel, mfind]
  | cons p r ih =>
    by_cases hk : p.1 = k
    · simpa [mdel, hk] using ih
    · simpa [mdel, mfind, hk] using ih

theorem mfind_mdel_ne (m : List (String × SessionV)) (k k2 : String)
    (hne : k2 ≠ k) : mfind (mdel m k) k2 = mfind m k2 := by
  induction m with
  | nil => simp [mdel]
  | cons p r ih =>
    by_cases hk : p.1 = k
    · have hp : ¬ p.1 = k2 := fun h => hne (h.symm.trans hk)
      simp only [mdel, if_pos hk, mfind, if_neg hp]
      exact ih
    · simp only [mdel, if_neg hk, mfind]
      by_cases h2 : p.1 = k2
      · rw [if_pos h2, if_pos h2]
      · rw [if_neg h2, if_neg h2, ih]

theorem mfind_mset_self (m : List (String × SessionV)) (k : String)
    (v : SessionV) : mfind (mset m k v) k = some v := by
  induction m with
  | nil => simp [mset, mfind]
  | cons p r ih =>
    by_cases hk : p.1 = k
    · simp [mset, hk, mfind]
    · simpa [mset, mfind, hk] using ih

theorem mfind_mset_ne (m : List (String × SessionV)) (k k2 : String)
    (v : SessionV) (hne : k2 ≠ k) : mfind (mset m k v) k2 = mfind m k2 := by
  induction m with
  | nil =>
    have hkk : ¬ k = k2 := fun h => hne h.symm
    simp [mset, mfind, hkk]
  | cons p r ih =>
    by_cases hk : p.1 = k
    · have hkk : ¬ k = k2 := fun h => hne h.symm
      have hp : ¬ p.1 = k2 := fun h => hne (h.symm.trans hk)
      simp [mset, if_pos hk, mfind, hkk, hp]
    · simp only [mset, if_neg hk, mfind]
      by_cases h2 : p.1 = k2
      · rw [if_pos h2, if_pos h2]
      · rw [if_neg h2, if_neg h2, ih]

theorem hexChars_length (bs : List Nat) :
    (hexChars bs).length = 2 * bs.length := by
  induction bs with
  | nil => simp [hexChars]
  | cons b r ih => simp [hexChars, ih]; omega

theorem hexEncodeStr_length (bs : List Nat) :
    (hexEncodeStr bs).length = 2 * bs.length := by
  show (hexChars bs).length = 2 * bs.length
  exact hexChars_length bs

end Session

/-- C4: `Get` returns a stored session exactly when the entry is present
and its age is at most the ttl; a present-but-expired entry is deleted by
that same `Get` (which reports a miss), so the entry is absent afterwards
and an immediately repeated `Get` also misses without further change. -/
theorem C4_get_expiry (s : Session.Store) (id : String) (now : Int) :
    (Session.mfind s.sessions id = none → Session.Get id now s = (none, s)) ∧
    (∀ ss, Session.mfind s.sessions id = some ss →
      (now - ss.createdAt ≤ s.ttl → Session.Get id now s = (some ss, s)) ∧
      (now - ss.createdAt > s.ttl →
        Session.Get id now s = (none, Session.Delete id s) ∧
        Session.mfind (Session.Delete id s).sessions id = none ∧
        Session.Get id now (Session.Delete id s)
          = (none, Session.Delete id s))) := by
  constructor
  · intro h
    simp [Session.Get, h]
  · intro ss hss
    constructor
    · intro hle
      have hlt : ¬ now - ss.createdAt > s.ttl := by omega
      simp [Session.Get, hss, hlt]
    · intro hgt
      have habs : Session.mfind (Session.Delete id s).sessions id = none :=
        Session.mfind_mdel s.sessions id
      refine ⟨by simp [Session.Get, hss, hgt]; rfl, habs, ?_⟩
      simp [Session.Get, habs]

theorem C4_get_expiry_witness :
    Session.Get "a" 20 Session.storeW = (none, Session.Delete "a" Session.storeW) ∧
    Session.Get "a" 20 (Session.Delete "a" Session.storeW)
      = (none, Session.Delete "a" Session.storeW) := by
  have h := ((C4_get_expiry Session.storeW "a" 20).2 ⟨"a", Session.userA, 0⟩
    (by decide)).2 (by decide)
  exact ⟨h.1, h.2.2⟩

/-- C5: `Create` fails exactly when the entropy source fails, and in that
case the store is untouched (no substitute id is ever used); on success it
returns and stores exactly the session `{id, principal, now}` whose id is
the 64-character hex encoding of the 32 random bytes. -/
theorem C5_create_entropy (u : Session.User) (e : Option (List Nat))
    (now : Int) (s : Session.Store) :
    ((Session.Create u e now s).1 = none ↔ e = none) ∧
    (e = none → Session.Create u e now s = (none, s)) ∧
    (∀ bs, e = some bs →
      Session.Create u e now s
        = (some ⟨Session.hexEncodeStr bs, u, now⟩,
           ⟨Session.mset s.sessions (Session.hexEncodeStr bs)
              ⟨Session.hexEncodeStr bs, u, now⟩, s.ttl⟩) ∧
      Session.mfind (Session.Create u e now s).2.sessions (Session.hexEncodeStr bs)
        = some ⟨Session.hexEncodeStr bs, u, now⟩ ∧
      (bs.length = 32 → (Session.hexEncodeStr bs).length = 64)) := by
  refine ⟨?_, ?_, ?_⟩
  · cases e with
    | none => simp [Session.Create, Session.newID]
    | some bs => simp [Session.Create, Session.newID]
  · intro h
    subst h
    simp [Session.Create, Session.newID]
  · intro bs hbs
    subst hbs
    refine ⟨by simp [Session.Create, Session.newID], ?_, ?_⟩
    · simp only [Session.Create, Session.newID]
      exact Session.mfind_mset_self s.sessions (Session.hexEncodeStr bs) _
    · intro h32
      rw [Session.hexEncodeStr_length, h32]

theorem C5_create_entropy_witness :
    Session.Create Session.userA (some Session.zeroBytes) 3 (Session.NewStore 10)
      = (some ⟨Session.zeroId, Session.userA, 3⟩,
         ⟨Session.mset (Session.NewStore 10).sessions Session.zeroId
            ⟨Session.zeroId, Session.userA, 3⟩, 10⟩) ∧
    (Session.zeroId).length = 64 := by
  have h := (C5_create_entropy Session.userA (some Session.zeroBytes) 3
    (Session.NewStore 10)).2.2 Session.zeroBytes rfl
  exact ⟨h.1, h.2.2 (by decide)⟩

/-- C6 as stated is false: `Create` writes its generated id
unconditionally, so when the randomly generated id collides with an id
already present, the `Create` (not a deletion) replaces that stored
session.  Concretely, with the 64-zero hex id already bound to `userA`,
a `Create` for `userB` whose entropy read is 32 zero bytes overwrites it. -/
theorem C6_counterexample :
    Session.mfind Session.store0.sessions Session.zeroId
        = some ⟨Session.zeroId, Session.userA, 0⟩ ∧
    Session.mfind
        (Session.Create Session.userB (some Session.zeroBytes) 5 Session.store0).2.sessions
        Session.zeroId
      = some ⟨Session.zeroId, Session.userB, 5⟩ ∧
    (⟨Session.zeroId, Session.userB, 5⟩ : Session.SessionV)
        ≠ ⟨Session.zeroId, Session.userA, 0⟩ := by
  refine ⟨?_, ?_, ?_⟩
  · simp [Session.store0, Session.mfind]
  · simp [Session.Create, Session.newID, Session.store0, Session.mset,
      Session.mfind, Session.zeroId]
  · intro h
    cases h

/-- C6 amended: reading a non-expired session leaves the store entirely
unchanged (in particular `createdAt` is never refreshed, so the ttl window
stays absolute); `Delete` removes exactly the targeted id and nothing
else; and `Create` — provided its generated id is fresh, which fails only
on a 256-bit random collision — adds its new entry and leaves every other
entry exactly as it was. -/
theorem C6_immutable_amended (s : Session.Store) (id : String) (now : Int)
    (u : Session.User) (bs : List Nat) :
    (∀ ss, Session.mfind s.sessions id = some ss → now - ss.createdAt ≤ s.ttl →
        Session.Get id now s = (some ss, s)) ∧
    (∀ id2, Session.mfind (Session.Delete id s).sessions id2
        = if id2 = id then none else Session.mfind s.sessions id2) ∧
    (Session.mfind s.sessions (Session.hexEncodeStr bs) = none →
      Session.mfind (Session.Create u (some bs) now s).2.sessions
          (Session.hexEncodeStr bs)
        = some ⟨Session.hexEncodeStr bs, u, now⟩ ∧
      ∀ id2, id2 ≠ Session.hexEncodeStr bs →
        Session.mfind (Session.Create u (some bs) now s).2.sessions id2
          = Session.mfind s.sessions id2) := by
  refine ⟨?_, ?_, ?_⟩
  · intro ss hss hle
    have hlt : ¬ now - ss.createdAt > s.ttl := by omega
    simp [Session.Get, hss, hlt]
  · intro id2
    by_cases h : id2 = id
    · subst h
      simp [Session.Delete, Session.mfind_mdel]
    · simp [Session.Delete, Session.mfind_mdel_ne s.sessions id id2 h, h]
  · intro _
    refine ⟨?_, ?_⟩
    · simp only [Session.Create, Session.newID]
      exact Session.mfind_mset_self s.sessions (Session.hexEncodeStr bs) _
    · intro id2 hne
      simp only [Session.Create, Session.newID]
      exact Session.mfind_mset_ne s.sessions (Session.hexEncodeStr bs) id2 _ hne

namespace Json

theorem scanStep_inString_safe (st : List PState) (c : Nat)
    (h1 : 32 ≤ c) (h2 : c ≠ 34) (h3 : c ≠ 92) :
    scanStep ⟨.inString, st⟩ c = ⟨.inString, st⟩ := by
  show inStringStep st c = ⟨.inString, st⟩
  rw [inStringStep, if_neg h2, if_neg h3, if_neg (by omega)]

theorem foldl_scan_safe (l : List Nat) (st : List PState)
    (h : ∀ c ∈ l, 32 ≤ c ∧ c ≠ 34 ∧ c ≠ 92) :
    l.foldl scanStep ⟨.inString, st⟩ = ⟨.inString, st⟩ := by
  induction l with
  | nil => rfl
  | cons c r ih =>
    have hc := h c (List.mem_cons_self c r)
    rw [List.foldl_cons, scanStep_inString_safe st c hc.1 hc.2.1 hc.2.2]
    exact ih fun x hx => h x (List.mem_cons_of_mem c hx)

theorem hexDigB_isHex (n : Nat) (h : n < 16) : isHexDigit (hexDigB n) := by
  unfold hexDigB isHexDigit
  split <;> omega

theorem scanStep_escU2_hex (st : List PState) (c : Nat) (h : isHexDigit c) :
    scanStep ⟨.escU2, st⟩ c = ⟨.escU3, st⟩ := by
  show (if isHexDigit c then (⟨.escU3, st⟩ : ScanState) else ⟨.err, st⟩) = ⟨.escU3, st⟩
  rw [if_pos h]

theorem scanStep_escU3_hex (st : List PState) (c : Nat) (h : isHexDigit c) :
    scanStep ⟨.escU3, st⟩ c = ⟨.inString, st⟩ := by
  show (if isHexDigit c then (⟨.inString, st⟩ : ScanState) else ⟨.err, st⟩) = ⟨.inString, st⟩
  rw [if_pos h]

theorem foldl_escByte (st : List PState) (b : Nat) (hb : b < 128) :
    (escByte b).foldl scanStep ⟨.inString, st⟩ = ⟨.inString, st⟩ := by
  unfold escByte
  split_ifs with h1 h2 h3 h4
  · rcases h1 with h | h <;> subst h <;> rfl
  · rfl
  · rfl
  · rfl
  · have hx1 : isHexDigit (hexDigB (b / 16)) := hexDigB_isHex _ (by omega)
    have hx2 : isHexDigit (hexDigB (b % 16)) := hexDigB_isHex _ (by omega)
    simp only [List.foldl_cons, List.foldl_nil]
    rw [show scanStep (scanStep (scanStep (scanStep ⟨Mode.inString, st⟩ 92) 117) 48) 48
        = (⟨Mode.escU2, st⟩ : ScanState) from rfl]
    rw [scanStep_escU2_hex st _ hx1, scanStep_escU3_hex st _ hx2]

theorem decodeRune_cases (b : Nat) (rest : List Nat) (hb : ¬ b < 128) :
    (decodeRune (b :: rest) = (0xFFFD, 1)) ∨
    (∃ b1 r1, rest = b1 :: r1
      ∧ decodeRune (b :: rest) = ((b - 0xC0) * 0x40 + (b1 - 0x80), 2)
      ∧ 0xC2 ≤ b ∧ b ≤ 0xDF ∧ 0x80 ≤ b1 ∧ b1 ≤ 0xBF) ∨
    (∃ b1 b2 r2, rest = b1 :: b2 :: r2
      ∧ decodeRune (b :: rest)
          = ((b - 0xE0) * 0x1000 + (b1 - 0x80) * 0x40 + (b2 - 0x80), 3)
      ∧ 0xE0 ≤ b ∧ b ≤ 0xEF ∧ 0x80 ≤ b1 ∧ b1 ≤ 0xBF ∧ 0x80 ≤ b2 ∧ b2 ≤ 0xBF) ∨
    (∃ b1 b2 b3 r3, rest = b1 :: b2 :: b3 :: r3
      ∧ decodeRune (b :: rest)
          = ((b - 0xF0) * 0x40000 + (b1 - 0x80) * 0x1000
              + (b2 - 0x80) * 0x40 + (b3 - 0x80), 4)
      ∧ 0xF0 ≤ b ∧ b ≤ 0xF4 ∧ 0x80 ≤ b1 ∧ b1 ≤ 0xBF
      ∧ 0x80 ≤ b2 ∧ b2 ≤ 0xBF ∧ 0x80 ≤ b3 ∧ b3 ≤ 0xBF) := by
  by_cases hA : b < 0xC2
  · left; simp [decodeRune, hb, hA]
  · by_cases hB : b ≤ 0xDF
    · cases rest with
      | nil => left; simp [decodeRune, hb, hA, hB]
      | cons b1 r1 =>
        by_cases hC : 0x80 ≤ b1 ∧ b1 ≤ 0xBF
        · right; left
          exact ⟨b1, r1, rfl, by simp [decodeRune, hb, hA, hB, hC],
            by omega, hB, hC.1, hC.2⟩
        · left; simp [decodeRune, hb, hA, hB, hC]
    · by_cases hD : b ≤ 0xEF
      · cases rest with
        | nil => left; simp [decodeRune, hb, hA, hB, hD]
        | cons b1 r1 =>
          cases r1 with
          | nil => left; simp [decodeRune, hb, hA, hB, hD]
          | cons b2 r2 =>
            by_cases hE : (if b = 0xE0 then 0xA0 else 0x80) ≤ b1
                ∧ b1 ≤ (if b = 0xED then 0x9F else 0xBF)
                ∧ 0x80 ≤ b2 ∧ b2 ≤ 0xBF
            · right; right; left
              obtain ⟨he1, he2, he3, he4⟩ := hE
              have hlo : 0x80 ≤ b1 := by
                by_cases h0 : b = 0xE0
                · rw [if_pos h0] at he1; omega
                · rw [if_neg h0] at he1; omega
              have hhi : b1 ≤ 0xBF := by
                by_cases h0 : b = 0xED
                · rw [if_pos h0] at he2; omega
                · rw [if_neg h0] at he2; omega
              exact ⟨b1, b2, r2, rfl,
                by simp [decodeRune, hb, hA, hB, hD, he1, he2, he3, he4],
                by omega, hD, hlo, hhi, he3, he4⟩
            · left; simp [decodeRune, hb, hA, hB, hD, hE]
      · by_cases hF : b ≤ 0xF4
        · cases rest with
          | nil => left; simp [decodeRune, hb, hA, hB, hD, hF]
          | cons b1 r1 =>
            cases r1 with
            | nil => left; simp [decodeRune, hb, hA, hB, hD, hF]
            | cons b2 r2 =>
              cases r2 with
              | nil => left; simp [decodeRune, hb, hA, hB, hD, hF]
              | cons b3 r3 =>
                by_cases hG : (if b = 0xF0 then 0x90 else 0x80) ≤ b1
                    ∧ b1 ≤ (if b = 0xF4 then 0x8F else 0xBF)
                    ∧ 0x80 ≤ b2 ∧ b2 ≤ 0xBF ∧ 0x80 ≤ b3 ∧ b3 ≤ 0xBF
                · right; right; right
                  obtain ⟨hg1, hg2, hg3, hg4, hg5, hg6⟩ := hG
                  have hlo : 0x80 ≤ b1 := by
                    by_cases h0 : b = 0xF0
                    · rw [if_pos h0] at hg1; omega
                    · rw [if_neg h0] at hg1; omega
                  have hhi : b1 ≤ 0xBF := by
                    by_cases h0 : b = 0xF4
                    · rw [if_pos h0] at hg2; omega
                    · rw [if_neg h0] at hg2; omega
                  exact ⟨b1, b2, b3, r3, rfl,
                    by simp [decodeRune, hb, hA, hB, hD, hF, hg1, hg2, hg3, hg4, hg5, hg6],
                    by omega, hF, hlo, hhi, hg3, hg4, hg5, hg6⟩
                · left; simp [decodeRune, hb, hA, hB, hD, hF, hG]
        · left; simp [decodeRune, hb, hA, hB, hD, hF]

theorem foldl_quoteBody : ∀ (s : List Nat) (st : List PState),
    (quoteBody s).foldl scanStep ⟨.inString, st⟩ = ⟨.inString, st⟩
  | [], _ => by simp [quoteBody]
  | b :: rest, st => by
    by_cases hb : b < 128
    · rw [show quoteBody (b :: rest)
          = (if htmlSafe b then [b] else escByte b) ++ quoteBody rest from by
        simp [quoteBody, hb]]
      rw [List.foldl_append]
      by_cases hs : htmlSafe b
      · rw [if_pos hs]
        simp only [List.foldl_cons, List.foldl_nil]
        rw [scanStep_inString_safe st b hs.1 hs.2.1 hs.2.2.1]
        exact foldl_quoteBody rest st
      · rw [if_neg hs, foldl_escByte st b hb]
        exact foldl_quoteBody rest st
    · rcases decodeRune_cases b rest hb with hE
        | ⟨b1, r1, hrest, hd, hb1, hb2, hc1, hc2⟩
        | ⟨b1, b2, r2, hrest, hd, hb1, hb2, hc1, hc2, hc3, hc4⟩
        | ⟨b1, b2, b3, r3, hrest, hd, hb1, hb2, hc1, hc2, hc3, hc4, hc5, hc6⟩
      · rw [show quoteBody (b :: rest)
            = [92, 117, 102, 102, 102, 100] ++ quoteBody rest from by
          simp [quoteBody, hb, hE]]
        rw [List.foldl_append,
          show List.foldl scanStep ⟨Mode.inString, st⟩ [92, 117, 102, 102, 102, 100]
            = (⟨Mode.inString, st⟩ : ScanState) from rfl]
        exact foldl_quoteBody rest st
      · subst hrest
        by_cases h20 : (b - 0xC0) * 0x40 + (b1 - 0x80) = 0x2028
            ∨ (b - 0xC0) * 0x40 + (b1 - 0x80) = 0x2029
        · rw [show quoteBody (b :: b1 :: r1) = [] from by
              simp [quoteBody, hb, hd, h20]]
          rfl
        · rw [show quoteBody (b :: b1 :: r1) = [b, b1] ++ quoteBody r1 from by
              simp [quoteBody, hb, hd, h20]]
          rw [List.foldl_append]
          simp only [List.foldl_cons, List.foldl_nil]
          rw [scanStep_inString_safe st b (by omega) (by omega) (by omega),
            scanStep_inString_safe st b1 (by omega) (by omega) (by omega)]
          exact foldl_quoteBody r1 st
      · subst hrest
        by_cases h20 : (b - 0xE0) * 0x1000 + (b1 - 0x80) * 0x40 + (b2 - 0x80) = 0x2028
            ∨ (b - 0xE0) * 0x1000 + (b1 - 0x80) * 0x40 + (b2 - 0x80) = 0x2029
        · rw [show quoteBody (b :: b1 :: b2 :: r2)
                = [92, 117, 50, 48, 50,
                    hexDigB (((b - 0xE0) * 0x1000 + (b1 - 0x80) * 0x40 + (b2 - 0x80)) % 16)]
                  ++ quoteBody r2 from by
              simp [quoteBody, hb, hd, h20]]
          rw [List.foldl_append]
          simp only [List.foldl_cons, List.foldl_nil]
          rw [show scanStep (scanStep (scanStep (scanStep
                (scanStep ⟨Mode.inString, st⟩ 92) 117) 50) 48) 50
              = (⟨Mode.escU3, st⟩ : ScanState) from rfl]
          rw [scanStep_escU3_hex st _ (hexDigB_isHex _ (by omega))]
          exact foldl_quoteBody r2 st
        · rw [show quoteBody (b :: b1 :: b2 :: r2) = [b, b1, b2] ++ quoteBody r2 from by
              simp [quoteBody, hb, hd, h20]]
          rw [List.foldl_append]
          simp only [List.foldl_cons, List.foldl_nil]
          rw [scanStep_inString_safe st b (by omega) (by omega) (by omega),
            scanStep_inString_safe st b1 (by omega) (by omega) (by omega),
            scanStep_inString_safe st b2 (by omega) (by omega) (by omega)]
          exact foldl_quoteBody r2 st
      · subst hrest
        by_cases h20 : (b - 0xF0) * 0x40000 + (b1 - 0x80) * 0x1000
              + (b2 - 0x80) * 0x40 + (b3 - 0x80) = 0x2028
            ∨ (b - 0xF0) * 0x40000 + (b1 - 0x80) * 0x1000
              + (b2 - 0x80) * 0x40 + (b3 - 0x80) = 0x2029
        · rw [show quoteBody (b :: b1 :: b2 :: b3 :: r3) = [] from by
              simp [quoteBody, hb, hd, h20]]
          rfl
        · rw [show quoteBody (b :: b1 :: b2 :: b3 :: r3)
                = [b, b1, b2, b3] ++ quoteBody r3 from by
              simp [quoteBody, hb, hd, h20]]
          rw [List.foldl_append]
          simp only [List.foldl_cons, List.foldl_nil]
          rw [scanStep_inString_safe st b (by omega) (by omega) (by omega),
            scanStep_inString_safe st b1 (by omega) (by omega) (by omega),
            scanStep_inString_safe st b2 (by omega) (by omega) (by omega),
            scanStep_inString_safe st b3 (by omega) (by omega) (by omega)]
          exact foldl_quoteBody r3 st
termination_by s => s.length

theorem scanInit_wrapOpen :
    List.foldl scanStep scanInit wrapOpen = ⟨.inString, [.objValue]⟩ := rfl

theorem jsonValid_rawWrap (b : List Nat) : jsonValid (rawWrap b) = true := by
  rw [jsonValid, rawWrap, List.foldl_append, List.foldl_append, scanInit_wrapOpen,
    foldl_quoteBody]
  rfl

end Json

theorem C6_immutable_amended_witness :
    Session.Get "a" 5 Session.storeW = (some ⟨"a", Session.userA, 0⟩, Session.storeW) ∧
    Session.mfind (Session.Delete "a" Session.storeW).sessions "a" = none := by
  have h := C6_immutable_amended Session.storeW "a" 5 Session.userB []
  exact ⟨h.1 ⟨"a", Session.userA, 0⟩ (by decide) (by decide),
    by have h2 := h.2.1 "a"; simpa using h2⟩

/-- C2: `Broadcast` forwards a payload that is already valid JSON
unchanged and wraps anything else as the envelope
`{"event":"raw","payload":"<bytes as string>"}`, so every enqueued (hence
delivered) message is valid JSON; in particular the non-JSON bytes `hello`
are normalized to exactly `{"event":"raw","payload":"hello"}`, and the
fan-out appends that frame to every registered client whose mailbox has
room. -/
theorem C2_broadcast_normalize (b : Hub.Msg) :
    Json.jsonValid (Hub.broadcastMsg b) = true ∧
    (Json.jsonValid b = true → Hub.broadcastMsg b = b) ∧
    (Json.jsonValid b = false → Hub.broadcastMsg b = Json.rawWrap b) ∧
    Json.jsonValid Json.helloBytes = false ∧
    Hub.broadcastMsg Json.helloBytes = Json.helloWrapped ∧
    (∀ qs : List Hub.Mailbox, (∀ q ∈ qs, q.length < Hub.mailboxCap) →
      Hub.fanOut (Hub.broadcastMsg Json.helloBytes) qs
        = qs.map (fun q => q ++ [Json.helloWrapped])) := by
  refine ⟨?_, ?_, ?_, by decide, by decide, ?_⟩
  · by_cases hv : Json.jsonValid b
    · simp [Hub.broadcastMsg, hv]
    · simp only [Hub.broadcastMsg, if_neg hv]
      exact Json.jsonValid_rawWrap b
  · intro hv
    simp [Hub.broadcastMsg, hv]
  · intro hv
    simp [Hub.broadcastMsg, hv]
  · intro qs hroom
    have hmsg : Hub.broadcastMsg Json.helloBytes = Json.helloWrapped := by decide
    rw [hmsg, Hub.fanOut]
    apply List.map_congr_left
    intro q hq
    simp [Hub.trySend, hroom q hq]

theorem C2_broadcast_normalize_witness :
    Hub.broadcastMsg Json.helloBytes = Json.rawWrap Json.helloBytes ∧
    Json.jsonValid (Hub.broadcastMsg Json.helloBytes) = true ∧
    Hub.fanOut (Hub.broadcastMsg Json.helloBytes) [[]]
      = List.map (fun q => q ++ [Json.helloWrapped]) [[]] :=
  ⟨(C2_broadcast_normalize Json.helloBytes).2.2.1 (by decide),
   (C2_broadcast_normalize Json.helloBytes).1,
   (C2_broadcast_normalize Json.helloBytes).2.2.2.2.2 [[]] (by decide)⟩

theorem C10_ring_buffer_witness :
    (Ring.addAll (Ring.NewRingBuffer Nat 2) [1, 2, 3]).arr
      = [1, 2, 3].drop
          ([1, 2, 3].length - (Ring.addAll (Ring.NewRingBuffer Nat 2) [1, 2, 3]).max) :=
  (C10_ring_buffer 2 [1, 2, 3] 9
    (Ring.addAll (Ring.NewRingBuffer Nat 2) [1, 2, 3]) rfl).2.1
